import Mathlib

/-!
Shallow embedding of `tensorflow/compiler/tf2xla/kernels/data_format_ops.cc`.

The file models the two XLA lowering kernels of that translation unit:

* `DataFormatDimMapOp` — remaps per-element dimension indices from a source
  data-format string to a destination data-format string;
* `DataFormatVecPermuteOp` — permutes the first-axis slices of a rank-1
  (length 4) or rank-2 (shape [4,2]) tensor from the source format's axis
  order into the destination format's axis order.

Machine integers are modelled as `Int` with explicit two's-complement
wrapping (`wrapW`); the XLA `Rem` instruction on signed integers is C-style
truncated remainder, modelled by `Int.tmod`.  Fallible operations return
`Except TfError`.
-/

namespace DataFormatOps

/-- Error kinds relevant to this translation unit.  Every failure in the
source is raised through `errors::InvalidArgument`. -/
inductive ErrorKind where
  | invalidArgument
  deriving DecidableEq, Repr

/-- An error as surfaced by `OP_REQUIRES` / `OP_REQUIRES_OK`: a kind plus a
human-readable message. -/
structure TfError where
  kind : ErrorKind
  message : String
  deriving DecidableEq, Repr

/-- The inner scan loop shared by both kernels
(`for j ...: if (fmt[j] == c) { ...; break; }`): index of the first
occurrence of character `c` in `l`, or `none` when `c` does not occur. -/
def scanIdx (c : Char) : List Char → Option Nat
  | [] => none
  | d :: rest => if d = c then some 0 else (scanIdx c rest).map (· + 1)

/-- The table-filling loop of `DataFormatDimMapOp`'s constructor: for each
position `i` of `src` (in order), the first position of `src[i]` in `dst`.
The C++ loop leaves `dst_idx_[i] = -1` and fails at the first `i` with no
match; this is modelled by returning `none` at the first unmatched
character. -/
def deriveTable : List Char → List Char → Option (List Nat)
  | [], _ => some []
  | c :: rest, dst =>
    match scanIdx c dst with
    | none => none
    | some j => (deriveTable rest dst).map (j :: ·)

/-- Constructor `DataFormatDimMapOp::DataFormatDimMapOp`: validates that both attribute
strings have length 4, then derives `dst_idx_` (`dst_idx_[i]` = position of
`src[i]` in `dst`), failing with `InvalidArgument` when some character of
`src` has no match in `dst`. -/
def dimMapConstruct (src dst : List Char) : Except TfError (List Nat) :=
  if src.length ≠ 4 then
    .error ⟨.invalidArgument,
      "Source format must of length 4, received src_format = " ++ String.mk src⟩
  else if dst.length ≠ 4 then
    .error ⟨.invalidArgument,
      "Destination format must of length 4, received dst_format = " ++ String.mk dst⟩
  else
    match deriveTable src dst with
    | some tbl => .ok tbl
    | none =>
      .error ⟨.invalidArgument,
        String.mk src ++ " is not a permutation of " ++ String.mk dst⟩

/-- Two's-complement wrapping of an unbounded integer into a signed `w`-bit
value: the semantics of XLA's `ConvertElementType` between signed integer
types (truncation to the low `w` bits) and of overflow in signed integer
`Add`. -/
def wrapW (w : Nat) (x : Int) : Int :=
  (x + 2 ^ (w - 1)) % 2 ^ w - 2 ^ (w - 1)

/-- The supported element types of both ops
(`TypeConstraint("T", {DT_INT32, DT_INT64})`). -/
inductive IntTy where
  | s32
  | s64
  deriving DecidableEq, Repr

/-- Bit width of a supported element type. -/
def IntTy.width : IntTy → Nat
  | .s32 => 32
  | .s64 => 64

/-- The per-element gather index computed by `DataFormatDimMapOp::Compile`:
`(ConvertElementType(input, S32) + four) % four`.  The convert truncates to
32 bits, the `S32` addition wraps, and XLA `Rem` is truncated
(sign-of-dividend) remainder. -/
def dimMapGatherIndex (v : Int) : Int :=
  Int.tmod (wrapW 32 (wrapW 32 v + 4)) 4

/-- One element of `DataFormatDimMapOp::Compile`: compute the gather index,
select from the 4-entry `dst_idx_` table (`xla::TorchIndexSelect`), and
convert the `S32` result back to the input's element type.  A gather index
outside the table bounds has implementation-defined behaviour in XLA, so it
is modelled as `none`. -/
def dimMapCompileElem (tbl : List Nat) (ty : IntTy) (v : Int) : Option Int :=
  let idx := dimMapGatherIndex v
  if h : 0 ≤ idx ∧ idx.toNat < tbl.length then
    some (wrapW ty.width (Int.ofNat (tbl.get ⟨idx.toNat, h.2⟩)))
  else
    none

/-- Operation `DataFormatDimMapOp::Compile` on a tensor of elements, element-wise; the
output has the input's shape (same element count) and element type. -/
def dimMapCompile (tbl : List Nat) (ty : IntTy) : List Int → Option (List Int)
  | [] => some []
  | v :: rest =>
    match dimMapCompileElem tbl ty v with
    | none => none
    | some o => (dimMapCompile tbl ty rest).map (o :: ·)

/-! ### Basic lemmas about `scanIdx` and `deriveTable` -/

theorem scanIdx_isSome_iff_mem (c : Char) :
    ∀ l : List Char, (scanIdx c l).isSome ↔ c ∈ l := by
  intro l
  induction l with
  | nil => simp [scanIdx]
  | cons d rest ih =>
    by_cases h : d = c
    · simp [scanIdx, h]
    · have hms : (Option.map (fun x => x + 1) (scanIdx c rest)).isSome
          = (scanIdx c rest).isSome := by
        cases scanIdx c rest <;> rfl
      simp only [scanIdx, if_neg h, List.mem_cons, hms]
      rw [ih]
      constructor
      · exact fun hm => Or.inr hm
      · rintro (rfl | hm)
        · exact absurd rfl h
        · exact hm

theorem scanIdx_spec (c : Char) :
    ∀ (l : List Char) (j : Nat), scanIdx c l = some j →
      j < l.length ∧ l.getD j c = c := by
  intro l
  induction l with
  | nil => intro j h; simp [scanIdx] at h
  | cons d rest ih =>
    intro j h
    by_cases hd : d = c
    · simp [scanIdx, hd] at h
      subst h
      simp [hd]
    · simp only [scanIdx, if_neg hd, Option.map_eq_some'] at h
      obtain ⟨j', hj', rfl⟩ := h
      obtain ⟨h1, h2⟩ := ih j' hj'
      refine ⟨by simpa using Nat.succ_lt_succ h1, ?_⟩
      simpa using h2

theorem scanIdx_getD_self :
    ∀ (l : List Char) (j : Nat), l.Nodup → j < l.length →
      scanIdx (l.getD j ' ') l = some j := by
  intro l
  induction l with
  | nil => intro j _ h; simp at h
  | cons d rest ih =>
    intro j hnd hj
    rcases j with _ | j'
    · simp [scanIdx]
    · have hd : d ∉ rest := (List.nodup_cons.mp hnd).1
      have hrest : rest.Nodup := (List.nodup_cons.mp hnd).2
      have hj' : j' < rest.length := by simpa using Nat.lt_of_succ_lt_succ hj
      have hmem : rest.getD j' ' ' ∈ rest := by
        rw [List.getD_eq_getElem rest ' ' hj']
        exact rest.getElem_mem hj'
      have hne : d ≠ rest.getD j' ' ' := fun he => hd (he ▸ hmem)
      rw [List.getD_cons_succ]
      simp only [scanIdx, if_neg hne]
      rw [ih j' hrest hj']
      rfl

theorem nodup_getD_ne {α : Type} {l : List α} (hnd : l.Nodup) {i j : Nat}
    (hi : i < l.length) (hj : j < l.length) (hij : i ≠ j) (d : α) :
    l.getD i d ≠ l.getD j d := by
  rw [List.getD_eq_getElem l d hi, List.getD_eq_getElem l d hj]
  intro he
  exact hij ((hnd.getElem_inj_iff).mp he)

theorem deriveTable_eq_none_iff :
    ∀ (src dst : List Char),
      deriveTable src dst = none ↔ ∃ c ∈ src, c ∉ dst := by
  intro src dst
  induction src with
  | nil => simp [deriveTable]
  | cons c rest ih =>
    cases hs : scanIdx c dst with
    | none =>
      have hc : c ∉ dst := by
        intro hm
        have := (scanIdx_isSome_iff_mem c dst).mpr hm
        rw [hs] at this
        exact absurd this (by simp)
      simp only [deriveTable, hs]
      constructor
      · intro _; exact ⟨c, by simp, hc⟩
      · intro _; trivial
    | some j =>
      simp only [deriveTable, hs, Option.map_eq_none']
      rw [ih]
      constructor
      · rintro ⟨a, ha, hna⟩; exact ⟨a, List.mem_cons_of_mem c ha, hna⟩
      · rintro ⟨a, ha, hna⟩
        rcases List.mem_cons.mp ha with rfl | ha'
        · have := (scanIdx_isSome_iff_mem a dst).mp (by rw [hs]; rfl)
          exact absurd this hna
        · exact ⟨a, ha', hna⟩

theorem deriveTable_length :
    ∀ (src dst : List Char) (tbl : List Nat),
      deriveTable src dst = some tbl → tbl.length = src.length := by
  intro src
  induction src with
  | nil => intro dst tbl h; simp [deriveTable] at h; simp [← h]
  | cons c rest ih =>
    intro dst tbl h
    cases hs : scanIdx c dst with
    | none => simp [deriveTable, hs] at h
    | some j =>
      simp only [deriveTable, hs, Option.map_eq_some'] at h
      obtain ⟨tbl', h1, rfl⟩ := h
      simp [ih dst tbl' h1]

theorem deriveTable_getD :
    ∀ (src dst : List Char) (tbl : List Nat),
      deriveTable src dst = some tbl →
      ∀ i, i < src.length →
        scanIdx (src.getD i ' ') dst = some (tbl.getD i 0) := by
  intro src
  induction src with
  | nil => intro dst tbl _ i hi; simp at hi
  | cons c rest ih =>
    intro dst tbl h i hi
    cases hs : scanIdx c dst with
    | none => simp [deriveTable, hs] at h
    | some j =>
      simp only [deriveTable, hs, Option.map_eq_some'] at h
      obtain ⟨tbl', h1, rfl⟩ := h
      rcases i with _ | i'
      · simpa using hs
      · have hi' : i' < rest.length := by simpa using Nat.lt_of_succ_lt_succ hi
        simpa using ih dst tbl' h1 i' hi'

/-- Every entry of a successfully derived table is a valid position in
`dst`. -/
theorem deriveTable_entries_lt :
    ∀ (src dst : List Char) (tbl : List Nat),
      deriveTable src dst = some tbl →
      ∀ i, i < tbl.length → tbl.getD i 0 < dst.length := by
  intro src dst tbl h i hi
  have hlen := deriveTable_length src dst tbl h
  have hi' : i < src.length := hlen ▸ hi
  have := deriveTable_getD src dst tbl h i hi'
  exact (scanIdx_spec _ dst _ this).1

/-- When `src` has pairwise-distinct characters, the derived table has
pairwise-distinct entries. -/
theorem deriveTable_nodup :
    ∀ (src dst : List Char) (tbl : List Nat),
      src.Nodup → deriveTable src dst = some tbl → tbl.Nodup := by
  intro src dst tbl hnd h
  have hlen := deriveTable_length src dst tbl h
  rw [List.nodup_iff_injective_getElem]
  rintro ⟨i, hi⟩ ⟨j, hj⟩ he
  simp only at he
  by_contra hne
  have hij : i ≠ j := fun hc => hne (by simp [hc])
  have hi' : i < src.length := hlen ▸ hi
  have hj' : j < src.length := hlen ▸ hj
  have e1 := deriveTable_getD src dst tbl h i hi'
  have e2 := deriveTable_getD src dst tbl h j hj'
  have hgd : tbl.getD i 0 = tbl.getD j 0 := by
    rw [List.getD_eq_getElem tbl 0 hi, List.getD_eq_getElem tbl 0 hj, he]
  rw [hgd] at e1
  have s1 := (scanIdx_spec _ dst _ e1).2
  have s2 := (scanIdx_spec _ dst _ e2).2
  have hjlt := (scanIdx_spec _ dst _ e2).1
  rw [List.getD_eq_getElem dst (src.getD i ' ') hjlt] at s1
  rw [List.getD_eq_getElem dst (src.getD j ' ') hjlt] at s2
  exact nodup_getD_ne hnd hi' hj' hij ' ' (s1.symm.trans s2)

/-! ### The vector-permute kernel (`DataFormatVecPermuteOp`) -/

/-- Modelled from the spec: the external recognized-format-name validator
(`FormatFromString` from the tensor-format utility header), whose
implementation is not part of this translation unit.  The spec describes it
only as accepting "a recognized/well-formed axis-layout label"; the length-4
labels are modelled as orderings of the four axis symbols N, C, H, W with no
repeated symbol. -/
def formatFromString (s : List Char) : Bool :=
  s.length == 4 && decide s.Nodup &&
    s.all (fun c => ['N', 'C', 'H', 'W'].contains c)

/-- Constructor `DataFormatVecPermuteOp::DataFormatVecPermuteOp`: each attribute string
must have length 4 and pass the recognized-format-name check; the validated
strings are stored for use at compile time. -/
def vecPermuteConstruct (src dst : List Char) :
    Except TfError (List Char × List Char) :=
  if src.length ≠ 4 then
    .error ⟨.invalidArgument, "Data format should have 4 characters"⟩
  else if ¬ formatFromString src then
    .error ⟨.invalidArgument, "Invalid data format"⟩
  else if dst.length ≠ 4 then
    .error ⟨.invalidArgument, "Data format should have 4 characters"⟩
  else if ¬ formatFromString dst then
    .error ⟨.invalidArgument, "Invalid data format"⟩
  else
    .ok (src, dst)

/-- A tensor value: a shape (list of dimension extents) plus row-major
flat data. -/
structure Tensor where
  shape : List Nat
  data : List Int
  deriving DecidableEq, Repr

/-- Modelled from the spec: the human-readable shape rendering
(`TensorShape::DebugString`, not part of this translation unit) appended to
the shape-validation error messages. -/
def shapeString (dims : List Nat) : String :=
  "[" ++ String.intercalate ("," ) (dims.map toString) ++ "]"

/-- The `dst_indices` loop of `DataFormatVecPermuteOp::Compile`: for each
`i` in order, find the first `j` with `src[i] == dst[j]` and write
`dst_indices[j] := i`.  The C++ array is uninitialized, so a slot never
written is modelled as `none`; a later iteration hitting the same slot
overwrites it, exactly as in the source. -/
def vecPermuteIndices (src dst : List Char) : List (Option Nat) :=
  (List.range 4).foldl
    (fun acc i =>
      match scanIdx (src.getD i ' ') dst with
      | some j => acc.set j (some i)
      | none => acc)
    [none, none, none, none]

/-- All-or-nothing view of the index array: `none` as soon as any slot was
left uninitialized (whereupon the C++ kernel would read indeterminate
memory). -/
def seqOpt : List (Option Nat) → Option (List Nat)
  | [] => some []
  | none :: _ => none
  | some x :: rest => (seqOpt rest).map (x :: ·)

/-- The slice of a row-major tensor at first-axis position `i`, each slice
holding `rowLen` elements. -/
def sliceAt (rowLen : Nat) (data : List Int) (i : Nat) : List Int :=
  (data.drop (i * rowLen)).take rowLen

/-- Gather `xla::TorchIndexSelect(input, indices, 0)` for a rank-1 integer index
list: the output's slice at position `j` is the input's slice at position
`idxs[j]`; the first output dimension is the number of indices. -/
def gatherAxis0 (idxs : List Nat) (t : Tensor) : Tensor :=
  { shape := idxs.length :: t.shape.drop 1
    data := (idxs.map (sliceAt (t.shape.drop 1).prod t.data)).flatten }

/-- Operation `DataFormatVecPermuteOp::Compile`: validate that the input is rank 1 or
rank 2, that the first dimension is 4, and (when rank 2) that the second
dimension is 2; then gather the input's first-axis slices through the
`dst_indices` table.  `.ok none` marks the implementation-defined case in
which an index slot was never initialized. -/
def vecPermuteCompile (src dst : List Char) (input : Tensor) :
    Except TfError (Option Tensor) :=
  if ¬(input.shape.length = 1 ∨ input.shape.length = 2) then
    .error ⟨.invalidArgument,
      "Input must be a vector or matrix, but got shape "
        ++ shapeString input.shape⟩
  else if input.shape.getD 0 0 ≠ 4 then
    .error ⟨.invalidArgument,
      "First dimension of input must be of size 4, but got shape "
        ++ shapeString input.shape⟩
  else if input.shape.length = 2 ∧ input.shape.getD 1 0 ≠ 2 then
    .error ⟨.invalidArgument,
      "Second dimension of 2D input must be of size 2, but got shape "
        ++ shapeString input.shape⟩
  else
    match seqOpt (vecPermuteIndices src dst) with
    | none => .ok none
    | some idxs => .ok (some (gatherAxis0 idxs input))

/-- Predicate stating that `val` occurs verbatim inside `msg`: the sense in which an error message
"identifies the offending value". -/
def mentions (val msg : String) : Prop :=
  val.data <:+: msg.data

/-! ### Characterization of the `dst_indices` fold -/

theorem scanIdx_getD (c : Char) (l : List Char) (j : Nat) (d : Char)
    (h : scanIdx c l = some j) : j < l.length ∧ l.getD j d = c := by
  obtain ⟨h1, h2⟩ := scanIdx_spec c l j h
  refine ⟨h1, ?_⟩
  rw [List.getD_eq_getElem l d h1]
  rw [List.getD_eq_getElem l c h1] at h2
  exact h2

theorem scanIdx_ne_of_ne (l : List Char) {a b : Char} {ja jb : Nat}
    (hab : a ≠ b) (ha : scanIdx a l = some ja) (hb : scanIdx b l = some jb) :
    ja ≠ jb := by
  intro he
  apply hab
  have h1 := (scanIdx_getD a l ja ' ' ha).2
  have h2 := (scanIdx_getD b l jb ' ' hb).2
  rw [← h1, ← h2, he]

theorem getD_set_self' {α : Type} (l : List α) (j : Nat) (a d : α)
    (h : j < l.length) : (l.set j a).getD j d = a := by
  rw [List.getD_eq_getElem _ d (by simpa using h)]
  exact List.getElem_set_self (by simpa using h)

theorem getD_set_other {α : Type} (l : List α) {i j : Nat} (a d : α)
    (h : i ≠ j) : (l.set i a).getD j d = l.getD j d := by
  simp [List.getD_eq_getElem?_getD, List.getElem?_set_ne h]

theorem exists_four {α : Type} (l : List α) (h : l.length = 4) :
    ∃ a b c d, l = [a, b, c, d] := by
  rcases l with _ | ⟨a, l⟩; · simp at h
  rcases l with _ | ⟨b, l⟩; · simp at h
  rcases l with _ | ⟨c, l⟩; · simp at h
  rcases l with _ | ⟨d, l⟩; · simp at h
  rcases l with _ | ⟨e, l⟩
  · exact ⟨a, b, c, d, rfl⟩
  · simp at h

theorem getD_mem {α : Type} (l : List α) (i : Nat) (d : α)
    (h : i < l.length) : l.getD i d ∈ l := by
  rw [List.getD_eq_getElem l d h]
  exact l.getElem_mem h

/-- With a source format of four distinct characters, each present in the
destination string, every slot of the `dst_indices` array is initialized,
and slot `j` holds a position `k` of `src` whose character is `dst[j]`. -/
theorem vecPermuteIndices_eq (src dst : List Char)
    (hs : src.length = 4) (hd : dst.length = 4) (hnd : src.Nodup)
    (hsub : ∀ c ∈ src, c ∈ dst) :
    ∃ k0 k1 k2 k3,
      vecPermuteIndices src dst = [some k0, some k1, some k2, some k3] ∧
      k0 < 4 ∧ k1 < 4 ∧ k2 < 4 ∧ k3 < 4 ∧
      src.getD k0 ' ' = dst.getD 0 ' ' ∧ src.getD k1 ' ' = dst.getD 1 ' ' ∧
      src.getD k2 ' ' = dst.getD 2 ' ' ∧ src.getD k3 ' ' = dst.getD 3 ' ' := by
  have hmem : ∀ i, i < 4 → src.getD i ' ' ∈ dst := fun i hi =>
    hsub _ (getD_mem src i ' ' (hs ▸ hi))
  have hscan : ∀ i, i < 4 → ∃ j, scanIdx (src.getD i ' ') dst = some j := by
    intro i hi
    have := (scanIdx_isSome_iff_mem (src.getD i ' ') dst).mpr (hmem i hi)
    cases hj : scanIdx (src.getD i ' ') dst with
    | none => rw [hj] at this; exact absurd this (by simp)
    | some j => exact ⟨j, rfl⟩
  obtain ⟨j0, hj0⟩ := hscan 0 (by omega)
  obtain ⟨j1, hj1⟩ := hscan 1 (by omega)
  obtain ⟨j2, hj2⟩ := hscan 2 (by omega)
  obtain ⟨j3, hj3⟩ := hscan 3 (by omega)
  have hb0 := (scanIdx_getD _ dst _ ' ' hj0).1
  have hb1 := (scanIdx_getD _ dst _ ' ' hj1).1
  have hb2 := (scanIdx_getD _ dst _ ' ' hj2).1
  have hb3 := (scanIdx_getD _ dst _ ' ' hj3).1
  rw [hd] at hb0 hb1 hb2 hb3
  have hg0 := (scanIdx_getD _ dst _ ' ' hj0).2
  have hg1 := (scanIdx_getD _ dst _ ' ' hj1).2
  have hg2 := (scanIdx_getD _ dst _ ' ' hj2).2
  have hg3 := (scanIdx_getD _ dst _ ' ' hj3).2
  have hchar : ∀ a b : Nat, a < 4 → b < 4 → a ≠ b →
      src.getD a ' ' ≠ src.getD b ' ' := fun a b ha hb hab =>
    nodup_getD_ne hnd (hs ▸ ha) (hs ▸ hb) hab ' '
  have ne01 : j0 ≠ j1 :=
    scanIdx_ne_of_ne dst (hchar 0 1 (by omega) (by omega) (by omega)) hj0 hj1
  have ne02 : j0 ≠ j2 :=
    scanIdx_ne_of_ne dst (hchar 0 2 (by omega) (by omega) (by omega)) hj0 hj2
  have ne03 : j0 ≠ j3 :=
    scanIdx_ne_of_ne dst (hchar 0 3 (by omega) (by omega) (by omega)) hj0 hj3
  have ne12 : j1 ≠ j2 :=
    scanIdx_ne_of_ne dst (hchar 1 2 (by omega) (by omega) (by omega)) hj1 hj2
  have ne13 : j1 ≠ j3 :=
    scanIdx_ne_of_ne dst (hchar 1 3 (by omega) (by omega) (by omega)) hj1 hj3
  have ne23 : j2 ≠ j3 :=
    scanIdx_ne_of_ne dst (hchar 2 3 (by omega) (by omega) (by omega)) hj2 hj3
  have hunf : vecPermuteIndices src dst =
      (((([none, none, none, none] : List (Option Nat)).set j0
        (some 0)).set j1 (some 1)).set j2 (some 2)).set j3 (some 3) := by
    unfold vecPermuteIndices
    have hrange : List.range 4 = [0, 1, 2, 3] := rfl
    rw [hrange]
    simp only [List.foldl_cons, List.foldl_nil, hj0, hj1, hj2, hj3]
  have hlen : (vecPermuteIndices src dst).length = 4 := by
    rw [hunf]; simp
  have hslot : ∀ j, j < 4 → ∃ k, k < 4 ∧
      (vecPermuteIndices src dst).getD j none = some k ∧
      src.getD k ' ' = dst.getD j ' ' := by
    intro j hj
    have hcover : j = j3 ∨ j = j2 ∨ j = j1 ∨ j = j0 := by omega
    rcases hcover with rfl | rfl | rfl | rfl
    · refine ⟨3, by omega, ?_, by rw [hg3]⟩
      rw [hunf]
      exact getD_set_self' _ _ (some 3) none (by simpa using hb3)
    · refine ⟨2, by omega, ?_, by rw [hg2]⟩
      rw [hunf, getD_set_other _ (some 3) none ne23.symm]
      exact getD_set_self' _ _ (some 2) none (by simpa using hb2)
    · refine ⟨1, by omega, ?_, by rw [hg1]⟩
      rw [hunf, getD_set_other _ (some 3) none ne13.symm,
        getD_set_other _ (some 2) none ne12.symm]
      exact getD_set_self' _ _ (some 1) none (by simpa using hb1)
    · refine ⟨0, by omega, ?_, by rw [hg0]⟩
      rw [hunf, getD_set_other _ (some 3) none ne03.symm,
        getD_set_other _ (some 2) none ne02.symm,
        getD_set_other _ (some 1) none ne01.symm]
      exact getD_set_self' _ _ (some 0) none (by simpa using hb0)
  obtain ⟨k0, hk0, e0, c0⟩ := hslot 0 (by omega)
  obtain ⟨k1, hk1, e1, c1⟩ := hslot 1 (by omega)
  obtain ⟨k2, hk2, e2, c2⟩ := hslot 2 (by omega)
  obtain ⟨k3, hk3, e3, c3⟩ := hslot 3 (by omega)
  obtain ⟨a0, a1, a2, a3, hlist⟩ := exists_four _ hlen
  rw [hlist] at e0 e1 e2 e3
  simp only [List.getD_cons_zero, List.getD_cons_succ] at e0 e1 e2 e3
  exact ⟨k0, k1, k2, k3, by rw [hlist, e0, e1, e2, e3],
    hk0, hk1, hk2, hk3, c0, c1, c2, c3⟩

/-! ### Helper lemmas for `dimMapConstruct` and `dimMapCompile` -/

theorem dimMapConstruct_ok (src dst : List Char) (tbl : List Nat)
    (h : dimMapConstruct src dst = .ok tbl) :
    src.length = 4 ∧ dst.length = 4 ∧ deriveTable src dst = some tbl := by
  by_cases h1 : src.length = 4
  · by_cases h2 : dst.length = 4
    · refine ⟨h1, h2, ?_⟩
      have hn1 : ¬ src.length ≠ 4 := by omega
      have hn2 : ¬ dst.length ≠ 4 := by omega
      simp only [dimMapConstruct, if_neg hn1, if_neg hn2] at h
      cases hdt : deriveTable src dst with
      | none => rw [hdt] at h; exact absurd h (by simp)
      | some t => rw [hdt] at h; simpa using h
    · simp only [dimMapConstruct] at h
      rw [if_neg (by omega : ¬ src.length ≠ 4), if_pos h2] at h
      exact absurd h (by simp)
  · simp only [dimMapConstruct, if_pos h1] at h
    exact absurd h (by simp)

theorem dimMapCompile_length (tbl : List Nat) (ty : IntTy) :
    ∀ (input out : List Int), dimMapCompile tbl ty input = some out →
      out.length = input.length := by
  intro input
  induction input with
  | nil =>
    intro out h
    simp only [dimMapCompile] at h
    simp [← Option.some_inj.mp h]
  | cons v rest ih =>
    intro out h
    simp only [dimMapCompile] at h
    cases he : dimMapCompileElem tbl ty v with
    | none => rw [he] at h; simp at h
    | some o =>
      rw [he] at h
      simp only [Option.map_eq_some'] at h
      obtain ⟨out', h1, rfl⟩ := h
      simp [ih out' h1]

/-- Wrapping `wrapW 32` fixes every value already in the signed 32-bit range. -/
theorem wrapW32_fix {v : Int} (h1 : -2147483648 ≤ v)
    (h2 : v < 2147483648) : wrapW 32 v = v := by
  unfold wrapW
  norm_num
  omega

/-! ### Claim C1 -/

/-- Claim C1, counterexample: `"NNNN"` is not a permutation of `"NHWC"`
(duplicate symbol set), yet construction of the dimension-index-remap kernel
succeeds, because the constructor only checks that every `src` character
occurs somewhere in `dst`. -/
theorem dimMapConstruct_nonperm_ok :
    ¬ (['N', 'N', 'N', 'N'] : List Char).Perm ['N', 'H', 'W', 'C'] ∧
    dimMapConstruct ['N', 'N', 'N', 'N'] ['N', 'H', 'W', 'C']
      = .ok [0, 0, 0, 0] := by
  exact ⟨by decide, rfl⟩

/-- Claim C1 (amended): for 4-character `src`/`dst`, construction of the
dimension-index-remap kernel fails — always with an invalid-argument error —
exactly when some character of `src` has no match in `dst` (a strictly
weaker condition than the strings not being permutations of each other). -/
theorem dimMapConstruct_fails_iff_missing_char
    (src dst : List Char) (hs : src.length = 4) (hd : dst.length = 4) :
    (∃ c ∈ src, c ∉ dst) ↔
      ∃ e, dimMapConstruct src dst = .error e ∧
        e.kind = .invalidArgument := by
  have hns : ¬ src.length ≠ 4 := by omega
  have hnd4 : ¬ dst.length ≠ 4 := by omega
  constructor
  · intro hex
    have hnone := (deriveTable_eq_none_iff src dst).mpr hex
    exact ⟨⟨.invalidArgument,
        String.mk src ++ " is not a permutation of " ++ String.mk dst⟩,
      by simp only [dimMapConstruct, if_neg hns, if_neg hnd4, hnone], rfl⟩
  · rintro ⟨e, he, _⟩
    by_contra hnex
    cases hdt : deriveTable src dst with
    | none => exact hnex ((deriveTable_eq_none_iff src dst).mp hdt)
    | some t =>
      simp only [dimMapConstruct, if_neg hns, if_neg hnd4, hdt] at he
      exact absurd he (by simp)

/-- Claim C1 witness: a concrete instantiation of the amended statement. -/
theorem dimMapConstruct_fails_iff_missing_char_witness :
    ∃ e, dimMapConstruct ['A', 'B', 'C', 'D'] ['N', 'H', 'W', 'C']
        = .error e ∧ e.kind = .invalidArgument :=
  (dimMapConstruct_fails_iff_missing_char
    ['A', 'B', 'C', 'D'] ['N', 'H', 'W', 'C'] (by decide) (by decide)).mp
    (by decide)

/-! ### Claim C2 -/

/-- Claim C2, counterexample: construction succeeds for
`src="NNNN"`, `dst="NHWC"`, yet the derived table `[0,0,0,0]` is not a
bijection on {0,1,2,3}: its entries are not pairwise distinct. -/
theorem dimMapTable_not_bijective :
    dimMapConstruct ['N', 'N', 'N', 'N'] ['N', 'H', 'W', 'C']
      = .ok [0, 0, 0, 0] ∧
    ¬ ([0, 0, 0, 0] : List Nat).Nodup := by
  exact ⟨rfl, by decide⟩

/-- Claim C2 (amended): whenever construction succeeds the table has 4
entries, each in [0,4); the entries are moreover pairwise distinct under the
extra assumption that `src` has 4 distinct characters (which the constructor
does not itself validate). -/
theorem dimMapTable_range_and_nodup
    (src dst : List Char) (tbl : List Nat)
    (h : dimMapConstruct src dst = .ok tbl) :
    tbl.length = 4 ∧ (∀ i, i < 4 → tbl.getD i 0 < 4) ∧
    (src.Nodup → tbl.Nodup) := by
  obtain ⟨hs, hd, hdt⟩ := dimMapConstruct_ok src dst tbl h
  have hlen : tbl.length = 4 := (deriveTable_length src dst tbl hdt).trans hs
  refine ⟨hlen, ?_, fun hnd => deriveTable_nodup src dst tbl hnd hdt⟩
  intro i hi
  have h4 := deriveTable_entries_lt src dst tbl hdt i (by omega)
  rw [hd] at h4
  exact h4

/-- Claim C2 witness: a concrete instantiation of the amended statement. -/
theorem dimMapTable_range_and_nodup_witness :
    ([0, 2, 3, 1] : List Nat).length = 4 ∧
    (∀ i, i < 4 → ([0, 2, 3, 1] : List Nat).getD i 0 < 4) ∧
    ((['N', 'H', 'W', 'C'] : List Char).Nodup →
      ([0, 2, 3, 1] : List Nat).Nodup) :=
  dimMapTable_range_and_nodup ['N', 'H', 'W', 'C'] ['N', 'C', 'H', 'W']
    [0, 2, 3, 1] rfl

/-! ### Claim C3 -/

/-- Claim C3: with `src_format="NHWC"`, `dst_format="NCHW"` the constructor
derives the table `[0,2,3,1]`; the compiled computation maps each in-range
input element `i` to the position of `src_format[i]` in `dst_format`, so
input `[0,1,2,3]` yields `[0,2,3,1]`; the output has the input's element
count (shape) and is converted back to the input's integer element type. -/
theorem dimMap_nhwc_nchw_correct :
    dimMapConstruct ['N', 'H', 'W', 'C'] ['N', 'C', 'H', 'W']
      = .ok [0, 2, 3, 1] ∧
    (∀ i, i < 4 → ∀ ty : IntTy,
      dimMapCompileElem [0, 2, 3, 1] ty (Int.ofNat i)
        = (scanIdx (['N', 'H', 'W', 'C'].getD i ' ')
            ['N', 'C', 'H', 'W']).map (fun j => (Int.ofNat j))) ∧
    (∀ ty : IntTy,
      dimMapCompile [0, 2, 3, 1] ty [0, 1, 2, 3] = some [0, 2, 3, 1]) ∧
    (∀ (tbl : List Nat) (ty : IntTy) (input out : List Int),
      dimMapCompile tbl ty input = some out →
        out.length = input.length) := by
  refine ⟨rfl, ?_, ?_, ?_⟩
  · intro i hi ty
    interval_cases i <;> cases ty <;> rfl
  · intro ty; cases ty <;> rfl
  · exact fun tbl ty input out h => dimMapCompile_length tbl ty input out h

/-- Claim C3 witness: a concrete instantiation. -/
theorem dimMap_nhwc_nchw_correct_witness :
    dimMapCompileElem [0, 2, 3, 1] IntTy.s32 (Int.ofNat 1)
      = (scanIdx (['N', 'H', 'W', 'C'].getD 1 ' ')
          ['N', 'C', 'H', 'W']).map (fun j => (Int.ofNat j)) :=
  dimMap_nhwc_nchw_correct.2.1 1 (by omega) IntTy.s32

/-! ### Claim C4 -/

/-- Claim C4: for every input element `v` in [-4,4) the gather index is
`(v + 4) mod 4`, which lies in [0,4); with the `"NHWC"`→`"NCHW"` table,
input `[-1,-2,-3,-4]` compiles to the same output as `[3,2,1,0]`. -/
theorem dimMap_wraparound_normalization :
    (∀ v : Int, -4 ≤ v → v < 4 →
      dimMapGatherIndex v = (v + 4) % 4 ∧
      0 ≤ dimMapGatherIndex v ∧ dimMapGatherIndex v < 4) ∧
    (∀ ty : IntTy,
      dimMapCompile [0, 2, 3, 1] ty [-1, -2, -3, -4]
        = dimMapCompile [0, 2, 3, 1] ty [3, 2, 1, 0]) := by
  constructor
  · intro v h1 h2
    interval_cases v <;> refine ⟨by decide, by decide, by decide⟩
  · intro ty; cases ty <;> rfl

/-- Claim C4 witness: a concrete instantiation at `v = -1`. -/
theorem dimMap_wraparound_normalization_witness :
    dimMapGatherIndex (-1) = ((-1 : Int) + 4) % 4 ∧
    0 ≤ dimMapGatherIndex (-1) ∧ dimMapGatherIndex (-1) < 4 :=
  dimMap_wraparound_normalization.1 (-1) (by norm_num) (by norm_num)

/-! ### Claim C9 -/

/-- Claim C9, counterexample: `v = -8` satisfies `v + 4 < 0`, yet the
truncated remainder `(v + 4) % 4` is `0`, which is *inside* [0,4) — the
claim's "yields a negative value, outside [0,4)" does not hold for every
`v ≤ -5`. -/
theorem dimMap_gather_index_neg8 :
    ((-8 : Int) + 4 < 0) ∧ dimMapGatherIndex (-8) = 0 := by
  exact ⟨by norm_num, by decide⟩

/-- Claim C9 (amended): for `v ≤ -5` in the signed 32-bit range the
normalization uses truncated (sign-preserving) remainder, so the gather
index is never positive, and it is negative — hence outside [0,4) — exactly
when `v + 4` is not a multiple of 4. -/
theorem dimMap_negative_gather_index (v : Int)
    (hlo : -2147483648 ≤ v) (hhi : v ≤ -5) :
    dimMapGatherIndex v ≤ 0 ∧
    (dimMapGatherIndex v < 0 ↔ ¬ (4 ∣ (v + 4))) := by
  have hw1 : wrapW 32 v = v := wrapW32_fix hlo (by omega)
  have hw2 : wrapW 32 (v + 4) = v + 4 := wrapW32_fix (by omega) (by omega)
  have hidx : dimMapGatherIndex v = Int.tmod (v + 4) 4 := by
    unfold dimMapGatherIndex
    rw [hw1, hw2]
  obtain ⟨m, hm⟩ := Int.eq_negSucc_of_lt_zero (show v + 4 < 0 by omega)
  have ht : Int.tmod (v + 4) 4 = -(((m + 1) % 4 : Nat) : Int) := by
    rw [hm]; rfl
  have hmv : v + 4 = -((m : Int) + 1) := by
    rw [hm, Int.negSucc_eq]
  rw [hidx, ht]
  constructor
  · omega
  · rw [hmv]
    omega

/-- Claim C9 witness: a concrete instantiation at `v = -7`. -/
theorem dimMap_negative_gather_index_witness :
    dimMapGatherIndex (-7) ≤ 0 ∧
    (dimMapGatherIndex (-7) < 0 ↔ ¬ (4 ∣ ((-7 : Int) + 4))) :=
  dimMap_negative_gather_index (-7) (by norm_num) (by norm_num)

/-! ### Claim C10 -/

/-- Claim C10: the 64-bit kernel first narrows each element to 32 bits —
the result depends only on the element modulo 2^32 — then performs the
normalization and table lookup in 32 bits and converts back, so
`2^32 + 1` produces the same output element as `1`. -/
theorem dimMap_s64_narrowing :
    (∀ (tbl : List Nat) (v w : Int), v % 2 ^ 32 = w % 2 ^ 32 →
      dimMapCompileElem tbl .s64 v = dimMapCompileElem tbl .s64 w) ∧
    dimMapCompileElem [0, 2, 3, 1] .s64 (2 ^ 32 + 1) = some 2 ∧
    dimMapCompileElem [0, 2, 3, 1] .s64 1 = some 2 := by
  refine ⟨?_, by decide, by decide⟩
  intro tbl v w hvw
  have hww : wrapW 32 v = wrapW 32 w := by
    unfold wrapW
    norm_num at hvw ⊢
    omega
  simp only [dimMapCompileElem, dimMapGatherIndex, hww]

/-- Claim C10 witness: `2^32` and `0` agree modulo 2^32, hence compile to
the same output element. -/
theorem dimMap_s64_narrowing_witness :
    dimMapCompileElem [0, 2, 3, 1] .s64 (2 ^ 32)
      = dimMapCompileElem [0, 2, 3, 1] .s64 0 :=
  dimMap_s64_narrowing.1 [0, 2, 3, 1] (2 ^ 32) 0 (by norm_num)

/-! ### Helper lemmas for `vecPermuteCompile` -/

theorem sliceAt_one :
    ∀ (data : List Int) (k : Nat), k < data.length →
      sliceAt 1 data k = [data.getD k 0] := by
  intro data
  induction data with
  | nil => intro k h; simp at h
  | cons a rest ih =>
    intro k h
    rcases k with _ | k'
    · simp [sliceAt]
    · have h' : k' < rest.length := by simpa using h
      have := ih k' h'
      simp only [sliceAt] at this ⊢
      have hidx : (k' + 1) * 1 = k' * 1 + 1 := by ring
      rw [hidx, List.getD_cons_succ]
      exact this

theorem sliceAt_length (r : Nat) (data : List Int) (k : Nat)
    (h : k * r + r ≤ data.length) : (sliceAt r data k).length = r := by
  simp only [sliceAt, List.length_take, List.length_drop]
  omega

theorem slices_of_flatten4 (r : Nat) (data : List Int) (k0 k1 k2 k3 : Nat)
    (hlen : data.length = 4 * r)
    (h0 : k0 < 4) (h1 : k1 < 4) (h2 : k2 < 4) (h3 : k3 < 4) :
    sliceAt r ((([k0, k1, k2, k3]).map (sliceAt r data)).flatten) 0
        = sliceAt r data k0 ∧
    sliceAt r ((([k0, k1, k2, k3]).map (sliceAt r data)).flatten) 1
        = sliceAt r data k1 ∧
    sliceAt r ((([k0, k1, k2, k3]).map (sliceAt r data)).flatten) 2
        = sliceAt r data k2 ∧
    sliceAt r ((([k0, k1, k2, k3]).map (sliceAt r data)).flatten) 3
        = sliceAt r data k3 := by
  have hs0 : (sliceAt r data k0).length = r := sliceAt_length r data k0 (by
    have := Nat.mul_le_mul_right r (show k0 ≤ 3 by omega)
    omega)
  have hs1 : (sliceAt r data k1).length = r := sliceAt_length r data k1 (by
    have := Nat.mul_le_mul_right r (show k1 ≤ 3 by omega)
    omega)
  have hs2 : (sliceAt r data k2).length = r := sliceAt_length r data k2 (by
    have := Nat.mul_le_mul_right r (show k2 ≤ 3 by omega)
    omega)
  have hs3 : (sliceAt r data k3).length = r := sliceAt_length r data k3 (by
    have := Nat.mul_le_mul_right r (show k3 ≤ 3 by omega)
    omega)
  have hL : (([k0, k1, k2, k3]).map (sliceAt r data)).flatten
      = sliceAt r data k0 ++ (sliceAt r data k1
        ++ (sliceAt r data k2 ++ sliceAt r data k3)) := by
    simp
  rw [hL]
  set a0 := sliceAt r data k0 with ha0
  set a1 := sliceAt r data k1 with ha1
  set a2 := sliceAt r data k2 with ha2
  set a3 := sliceAt r data k3 with ha3
  refine ⟨?_, ?_, ?_, ?_⟩
  · simp only [sliceAt, Nat.zero_mul, List.drop_zero]
    exact List.take_left' hs0
  · simp only [sliceAt, Nat.one_mul]
    rw [List.drop_left' hs0]
    exact List.take_left' hs1
  · simp only [sliceAt]
    rw [show a0 ++ (a1 ++ (a2 ++ a3)) = (a0 ++ a1) ++ (a2 ++ a3) by
      rw [List.append_assoc]]
    rw [List.drop_left' (by rw [List.length_append, hs0, hs1]; omega)]
    exact List.take_left' hs2
  · simp only [sliceAt]
    rw [show a0 ++ (a1 ++ (a2 ++ a3)) = ((a0 ++ a1) ++ a2) ++ a3 by
      rw [List.append_assoc, List.append_assoc]]
    rw [List.drop_left'
      (by rw [List.length_append, List.length_append, hs0, hs1, hs2]; omega)]
    rw [← hs3]
    exact List.take_length a3

theorem gatherAxis0_rank1 (data : List Int) (hlen : data.length = 4)
    (k0 k1 k2 k3 : Nat)
    (h0 : k0 < 4) (h1 : k1 < 4) (h2 : k2 < 4) (h3 : k3 < 4) :
    gatherAxis0 [k0, k1, k2, k3] ⟨[4], data⟩
      = ⟨[4], [data.getD k0 0, data.getD k1 0,
               data.getD k2 0, data.getD k3 0]⟩ := by
  have e0 := sliceAt_one data k0 (by omega)
  have e1 := sliceAt_one data k1 (by omega)
  have e2 := sliceAt_one data k2 (by omega)
  have e3 := sliceAt_one data k3 (by omega)
  simp [gatherAxis0, e0, e1, e2, e3]

theorem getD_inj_of_nodup (src : List Char) (hnd : src.Nodup)
    {a b : Nat} (ha : a < src.length) (hb : b < src.length)
    (h : src.getD a ' ' = src.getD b ' ') : a = b := by
  by_contra hne
  exact nodup_getD_ne hnd ha hb hne ' ' h

/-- A valid construction plus a valid input shape yields a fully
initialized index array and a successful gather. -/
theorem vecCompile_valid (src dst : List Char) (hs : src.length = 4)
    (hd : dst.length = 4) (hnd : src.Nodup) (hsub : ∀ c ∈ src, c ∈ dst)
    (input : Tensor)
    (hshape : input.shape = [4] ∧ input.data.length = 4 ∨
              input.shape = [4, 2] ∧ input.data.length = 8) :
    ∃ k0 k1 k2 k3,
      k0 < 4 ∧ k1 < 4 ∧ k2 < 4 ∧ k3 < 4 ∧
      src.getD k0 ' ' = dst.getD 0 ' ' ∧ src.getD k1 ' ' = dst.getD 1 ' ' ∧
      src.getD k2 ' ' = dst.getD 2 ' ' ∧ src.getD k3 ' ' = dst.getD 3 ' ' ∧
      vecPermuteCompile src dst input
        = .ok (some (gatherAxis0 [k0, k1, k2, k3] input)) := by
  obtain ⟨k0, k1, k2, k3, hind, hk0, hk1, hk2, hk3, c0, c1, c2, c3⟩ :=
    vecPermuteIndices_eq src dst hs hd hnd hsub
  refine ⟨k0, k1, k2, k3, hk0, hk1, hk2, hk3, c0, c1, c2, c3, ?_⟩
  have hseq : seqOpt (vecPermuteIndices src dst) = some [k0, k1, k2, k3] := by
    rw [hind]; rfl
  rcases hshape with ⟨h1, _⟩ | ⟨h1, _⟩ <;>
    simp [vecPermuteCompile, h1, hseq]

/-- Any format accepted by the (spec-modelled) recognized-format validator
has length 4 and pairwise-distinct characters, so the hypotheses used below
hold for every constructible vector-permute kernel. -/
theorem formatFromString_length_nodup (s : List Char)
    (h : formatFromString s = true) : s.length = 4 ∧ s.Nodup := by
  unfold formatFromString at h
  simp only [Bool.and_eq_true, beq_iff_eq, decide_eq_true_eq] at h
  exact ⟨h.1.1, h.1.2⟩

/-! ### Claim C5 -/

/-- Claim C5: for every valid input (rank-1 length-4, or rank-2 shape
[4,2]) of a vector-permute kernel whose formats are 4 distinct symbols of
one another, the output's first-axis slice at position `j` is the input's
slice at `dst_indices[j]`, the position in `src_format` of the symbol
`dst_format[j]`; in particular `"NHWC"`→`"NCHW"` sends `[10,20,30,40]` to
`[10,40,20,30]` and permutes the rows of a [4,2] input identically, columns
untouched. -/
theorem vecPermute_slice_correct :
    (∀ (src dst : List Char), src.length = 4 → dst.length = 4 →
      src.Nodup → (∀ c ∈ src, c ∈ dst) →
      ∀ input : Tensor,
        (input.shape = [4] ∧ input.data.length = 4 ∨
         input.shape = [4, 2] ∧ input.data.length = 8) →
        ∃ out, vecPermuteCompile src dst input = .ok (some out) ∧
          out.shape = input.shape ∧
          (∀ j, j < 4 → ∃ k, k < 4 ∧
            scanIdx (dst.getD j ' ') src = some k ∧
            sliceAt (input.shape.drop 1).prod out.data j
              = sliceAt (input.shape.drop 1).prod input.data k)) ∧
    vecPermuteCompile ['N', 'H', 'W', 'C'] ['N', 'C', 'H', 'W']
        ⟨[4], [10, 20, 30, 40]⟩ = .ok (some ⟨[4], [10, 40, 20, 30]⟩) ∧
    vecPermuteCompile ['N', 'H', 'W', 'C'] ['N', 'C', 'H', 'W']
        ⟨[4, 2], [10, 11, 20, 21, 30, 31, 40, 41]⟩
      = .ok (some ⟨[4, 2], [10, 11, 40, 41, 20, 21, 30, 31]⟩) := by
  refine ⟨?_, by rfl, by rfl⟩
  intro src dst hs hd hnd hsub input hshape
  obtain ⟨k0, k1, k2, k3, hk0, hk1, hk2, hk3, c0, c1, c2, c3, hcomp⟩ :=
    vecCompile_valid src dst hs hd hnd hsub input hshape
  have hscan0 : scanIdx (dst.getD 0 ' ') src = some k0 := by
    rw [← c0]; exact scanIdx_getD_self src k0 hnd (by omega)
  have hscan1 : scanIdx (dst.getD 1 ' ') src = some k1 := by
    rw [← c1]; exact scanIdx_getD_self src k1 hnd (by omega)
  have hscan2 : scanIdx (dst.getD 2 ' ') src = some k2 := by
    rw [← c2]; exact scanIdx_getD_self src k2 hnd (by omega)
  have hscan3 : scanIdx (dst.getD 3 ' ') src = some k3 := by
    rw [← c3]; exact scanIdx_getD_self src k3 hnd (by omega)
  refine ⟨gatherAxis0 [k0, k1, k2, k3] input, hcomp, ?_, ?_⟩
  · rcases hshape with ⟨h1, _⟩ | ⟨h1, _⟩ <;> simp [gatherAxis0, h1]
  · have hr : input.data.length = 4 * (input.shape.drop 1).prod := by
      rcases hshape with ⟨h1, h2⟩ | ⟨h1, h2⟩ <;> simp [h1, h2]
    obtain ⟨s0, s1, s2, s3⟩ := slices_of_flatten4 _ input.data k0 k1 k2 k3
      hr hk0 hk1 hk2 hk3
    intro j hj
    have hj4 : j = 0 ∨ j = 1 ∨ j = 2 ∨ j = 3 := by omega
    rcases hj4 with rfl | rfl | rfl | rfl
    · exact ⟨k0, hk0, hscan0, s0⟩
    · exact ⟨k1, hk1, hscan1, s1⟩
    · exact ⟨k2, hk2, hscan2, s2⟩
    · exact ⟨k3, hk3, hscan3, s3⟩

/-- Claim C5 witness: a concrete instantiation. -/
theorem vecPermute_slice_correct_witness :
    ∃ out, vecPermuteCompile ['N', 'H', 'W', 'C'] ['H', 'W', 'C', 'N']
        ⟨[4], [5, 6, 7, 8]⟩ = .ok (some out) ∧
      out.shape = [4] ∧
      (∀ j, j < 4 → ∃ k, k < 4 ∧
        scanIdx ((['H', 'W', 'C', 'N'] : List Char).getD j ' ')
          ['N', 'H', 'W', 'C'] = some k ∧
        sliceAt 1 out.data j = sliceAt 1 [5, 6, 7, 8] k) :=
  vecPermute_slice_correct.1 ['N', 'H', 'W', 'C'] ['H', 'W', 'C', 'N']
    (by decide) (by decide) (by decide) (by decide)
    ⟨[4], [5, 6, 7, 8]⟩ (Or.inl ⟨rfl, rfl⟩)

/-! ### Claim C6 -/

/-- Claim C6: any vector-permute input whose rank is not 1 or 2, or whose
first dimension is not 4, or which is rank 2 with second dimension not 2,
makes `Compile` fail with an invalid-argument error — the `Except.error`
result carries no output value. -/
theorem vecPermute_shape_rejection
    (src dst : List Char) (input : Tensor)
    (hbad : (input.shape.length ≠ 1 ∧ input.shape.length ≠ 2) ∨
      input.shape.getD 0 0 ≠ 4 ∨
      (input.shape.length = 2 ∧ input.shape.getD 1 0 ≠ 2)) :
    ∃ e, vecPermuteCompile src dst input = .error e ∧
      e.kind = .invalidArgument := by
  unfold vecPermuteCompile
  split_ifs with hA hB hC
  · exact ⟨_, rfl, rfl⟩
  · exact ⟨_, rfl, rfl⟩
  · exfalso
    rcases hbad with ⟨hx, hy⟩ | hx | hx
    · rcases hA with h | h
      · exact hx h
      · exact hy h
    · exact hB hx
    · exact hC hx
  · exact ⟨_, rfl, rfl⟩

/-- Claim C6 witness: a rank-1 input of length 3 is rejected. -/
theorem vecPermute_shape_rejection_witness :
    ∃ e, vecPermuteCompile ['N', 'H', 'W', 'C'] ['N', 'H', 'W', 'C']
        ⟨[3], [0, 0, 0]⟩ = .error e ∧ e.kind = .invalidArgument :=
  vecPermute_shape_rejection ['N', 'H', 'W', 'C'] ['N', 'H', 'W', 'C']
    ⟨[3], [0, 0, 0]⟩ (Or.inr (Or.inl (by decide)))

/-! ### Claim C7 -/

/-- Claim C7: for 4-symbol format strings that are permutations of each
other with distinct symbols, the table derived for (src,dst) composed with
the table derived for (dst,src) is the identity on {0,1,2,3};
consequently vector-permuting A→B and then B→A restores the original
length-4 vector, and permuting with `src_format = dst_format` is the
identity. -/
theorem formatPermutation_round_trip :
    (∀ (src dst : List Char) (t1 t2 : List Nat),
      src.length = 4 → dst.length = 4 → src.Nodup →
      deriveTable src dst = some t1 → deriveTable dst src = some t2 →
      ∀ i, i < 4 → t2.getD (t1.getD i 0) 0 = i) ∧
    (∀ (src dst : List Char), src.length = 4 → src.Nodup →
      dst.Perm src →
      ∀ data : List Int, data.length = 4 →
      ∃ mid, vecPermuteCompile src dst ⟨[4], data⟩ = .ok (some mid) ∧
        vecPermuteCompile dst src mid = .ok (some ⟨[4], data⟩)) ∧
    (∀ src : List Char, src.length = 4 → src.Nodup →
      ∀ data : List Int, data.length = 4 →
      vecPermuteCompile src src ⟨[4], data⟩ = .ok (some ⟨[4], data⟩)) := by
  refine ⟨?_, ?_, ?_⟩
  · intro src dst t1 t2 hs hd hnd h1 h2 i hi
    have e1 := deriveTable_getD src dst t1 h1 i (by omega)
    have hlt := (scanIdx_getD _ dst _ ' ' e1).1
    have hch := (scanIdx_getD _ dst _ ' ' e1).2
    have e2 := deriveTable_getD dst src t2 h2 (t1.getD i 0) hlt
    rw [hch] at e2
    have e3 := scanIdx_getD_self src i hnd (by omega)
    rw [e3] at e2
    exact (Option.some_inj.mp e2).symm
  · intro src dst hs hnds hperm data hdata
    have hd : dst.length = 4 := hperm.length_eq.trans hs
    have hndd : dst.Nodup := hperm.nodup_iff.mpr hnds
    have hsub1 : ∀ c ∈ src, c ∈ dst := fun c hc => hperm.mem_iff.mpr hc
    have hsub2 : ∀ c ∈ dst, c ∈ src := fun c hc => hperm.mem_iff.mp hc
    obtain ⟨k0, k1, k2, k3, hk0, hk1, hk2, hk3, c0, c1, c2, c3, hcomp1⟩ :=
      vecCompile_valid src dst hs hd hnds hsub1 ⟨[4], data⟩
        (Or.inl ⟨rfl, hdata⟩)
    rw [gatherAxis0_rank1 data hdata k0 k1 k2 k3 hk0 hk1 hk2 hk3] at hcomp1
    refine ⟨⟨[4], [data.getD k0 0, data.getD k1 0,
      data.getD k2 0, data.getD k3 0]⟩, hcomp1, ?_⟩
    obtain ⟨m0, m1, m2, m3, hm0, hm1, hm2, hm3, d0, d1, d2, d3, hcomp2⟩ :=
      vecCompile_valid dst src hd hs hndd hsub2
        ⟨[4], [data.getD k0 0, data.getD k1 0,
               data.getD k2 0, data.getD k3 0]⟩
        (Or.inl ⟨rfl, rfl⟩)
    rw [gatherAxis0_rank1 [data.getD k0 0, data.getD k1 0, data.getD k2 0,
      data.getD k3 0] rfl m0 m1 m2 m3 hm0 hm1 hm2 hm3] at hcomp2
    have hkm : ∀ m, m < 4 → [k0, k1, k2, k3].getD m 0 < 4 ∧
        src.getD ([k0, k1, k2, k3].getD m 0) ' ' = dst.getD m ' ' ∧
        ([data.getD k0 0, data.getD k1 0, data.getD k2 0,
          data.getD k3 0].getD m 0)
          = data.getD ([k0, k1, k2, k3].getD m 0) 0 := by
      intro m hm
      interval_cases m <;> exact ⟨by assumption, by assumption, rfl⟩
    have hentry : ∀ j m, j < 4 → m < 4 → dst.getD m ' ' = src.getD j ' ' →
        ([data.getD k0 0, data.getD k1 0, data.getD k2 0,
          data.getD k3 0].getD m 0) = data.getD j 0 := by
      intro j m hj hm hdm
      obtain ⟨hb, hc, hv⟩ := hkm m hm
      have hee : src.getD ([k0, k1, k2, k3].getD m 0) ' '
          = src.getD j ' ' := by rw [hc, hdm]
      have heq := getD_inj_of_nodup src hnds (by omega) (by omega) hee
      rw [hv, heq]
    have f0 := hentry 0 m0 (by omega) hm0 d0
    have f1 := hentry 1 m1 (by omega) hm1 d1
    have f2 := hentry 2 m2 (by omega) hm2 d2
    have f3 := hentry 3 m3 (by omega) hm3 d3
    rw [f0, f1, f2, f3] at hcomp2
    obtain ⟨a, b, c, d, rfl⟩ := exists_four data hdata
    exact hcomp2
  · intro src hs hnd data hdata
    obtain ⟨k0, k1, k2, k3, hk0, hk1, hk2, hk3, c0, c1, c2, c3, hcomp⟩ :=
      vecCompile_valid src src hs hs hnd (fun c hc => hc) ⟨[4], data⟩
        (Or.inl ⟨rfl, hdata⟩)
    rw [gatherAxis0_rank1 data hdata k0 k1 k2 k3 hk0 hk1 hk2 hk3] at hcomp
    have e0 : k0 = 0 := getD_inj_of_nodup src hnd (by omega) (by omega) c0
    have e1 : k1 = 1 := getD_inj_of_nodup src hnd (by omega) (by omega) c1
    have e2 : k2 = 2 := getD_inj_of_nodup src hnd (by omega) (by omega) c2
    have e3 : k3 = 3 := getD_inj_of_nodup src hnd (by omega) (by omega) c3
    rw [e0, e1, e2, e3] at hcomp
    obtain ⟨a, b, c, d, rfl⟩ := exists_four data hdata
    exact hcomp

/-- Claim C7 witness: concrete instantiations of all three parts. -/
theorem formatPermutation_round_trip_witness :
    ([0, 3, 1, 2] : List Nat).getD (([0, 2, 3, 1] : List Nat).getD 0 0) 0
        = 0 ∧
    (∃ mid, vecPermuteCompile ['N', 'H', 'W', 'C'] ['N', 'C', 'H', 'W']
        ⟨[4], [10, 20, 30, 40]⟩ = .ok (some mid) ∧
      vecPermuteCompile ['N', 'C', 'H', 'W'] ['N', 'H', 'W', 'C'] mid
        = .ok (some ⟨[4], [10, 20, 30, 40]⟩)) ∧
    vecPermuteCompile ['H', 'W', 'C', 'N'] ['H', 'W', 'C', 'N']
        ⟨[4], [1, 2, 3, 4]⟩ = .ok (some ⟨[4], [1, 2, 3, 4]⟩) :=
  ⟨formatPermutation_round_trip.1 ['N', 'H', 'W', 'C'] ['N', 'C', 'H', 'W']
      [0, 2, 3, 1] [0, 3, 1, 2] (by decide) (by decide) (by decide)
      (by decide) (by decide) 0 (by omega),
   formatPermutation_round_trip.2.1 ['N', 'H', 'W', 'C'] ['N', 'C', 'H', 'W']
      (by decide) (by decide) (by decide) [10, 20, 30, 40] rfl,
   formatPermutation_round_trip.2.2 ['H', 'W', 'C', 'N'] (by decide)
      (by decide) [1, 2, 3, 4] rfl⟩

/-! ### Claim C8 -/

theorem mentions_append_right (pre v : String) : mentions v (pre ++ v) :=
  ⟨pre.data, [], by simp⟩

theorem mentions_concat_left (v m post : String) :
    mentions v (v ++ m ++ post) :=
  ⟨[], m.data ++ post.data, by simp⟩

/-- Claim C8, counterexample: a construction-time failure of the
vector-permute kernel (format attribute of length 5) carries the fixed
message "Data format should have 4 characters", which does not contain the
offending string. -/
theorem vecPermuteConstruct_message_no_value :
    vecPermuteConstruct ['N', 'H', 'W', 'C', 'X'] ['N', 'C', 'H', 'W']
      = .error ⟨.invalidArgument, "Data format should have 4 characters"⟩ ∧
    ¬ mentions (String.mk ['N', 'H', 'W', 'C', 'X'])
        "Data format should have 4 characters" := by
  constructor
  · rfl
  · show ¬ ((String.mk ['N', 'H', 'W', 'C', 'X']).data
      <:+: ("Data format should have 4 characters" : String).data)
    decide

/-- Claim C8 (amended): dimension-index-remap construction failures and
vector-permute compile-time shape failures carry messages that contain the
offending value (a format string or the shape rendering), but the
vector-permute *construction-time* format failures carry one of two fixed
messages that omit the offending string. -/
theorem error_messages_identify_values :
    (∀ (src dst : List Char) (e : TfError),
      dimMapConstruct src dst = .error e →
      e.kind = .invalidArgument ∧
        (mentions (String.mk src) e.message ∨
         mentions (String.mk dst) e.message)) ∧
    (∀ (src dst : List Char) (input : Tensor) (e : TfError),
      vecPermuteCompile src dst input = .error e →
      e.kind = .invalidArgument ∧
        mentions (shapeString input.shape) e.message) ∧
    (∀ (src dst : List Char) (e : TfError),
      vecPermuteConstruct src dst = .error e →
      e.message = "Data format should have 4 characters" ∨
      e.message = "Invalid data format") := by
  refine ⟨?_, ?_, ?_⟩
  · intro src dst e he
    unfold dimMapConstruct at he
    split_ifs at he with h1 h2
    · cases he
      exact ⟨rfl, Or.inl (mentions_append_right _ _)⟩
    · cases he
      exact ⟨rfl, Or.inr (mentions_append_right _ _)⟩
    · cases hdt : deriveTable src dst with
      | none =>
        rw [hdt] at he
        cases he
        exact ⟨rfl, Or.inr (mentions_append_right _ _)⟩
      | some t =>
        rw [hdt] at he
        exact absurd he (by simp)
  · intro src dst input e he
    unfold vecPermuteCompile at he
    split_ifs at he with h1 h2 h3
    · cases he
      exact ⟨rfl, mentions_append_right _ _⟩
    · cases he
      exact ⟨rfl, mentions_append_right _ _⟩
    · cases hdt : seqOpt (vecPermuteIndices src dst) with
      | none => rw [hdt] at he; exact absurd he (by simp)
      | some idxs => rw [hdt] at he; exact absurd he (by simp)
    · cases he
      exact ⟨rfl, mentions_append_right _ _⟩
  · intro src dst e he
    unfold vecPermuteConstruct at he
    split_ifs at he <;>
      first
        | (cases he; exact Or.inl rfl)
        | (cases he; exact Or.inr rfl)

/-- Claim C8 witness: a concrete dimension-index-remap failure whose
message contains the offending source-format string. -/
theorem error_messages_identify_values_witness :
    (⟨ErrorKind.invalidArgument,
      "Source format must of length 4, received src_format = "
        ++ String.mk ['N', 'H', 'W', 'C', 'X']⟩ : TfError).kind
        = ErrorKind.invalidArgument ∧
    (mentions (String.mk ['N', 'H', 'W', 'C', 'X'])
        (⟨ErrorKind.invalidArgument,
          "Source format must of length 4, received src_format = "
            ++ String.mk ['N', 'H', 'W', 'C', 'X']⟩ : TfError).message ∨
     mentions (String.mk ['N', 'C', 'H', 'W'])
        (⟨ErrorKind.invalidArgument,
          "Source format must of length 4, received src_format = "
            ++ String.mk ['N', 'H', 'W', 'C', 'X']⟩ : TfError).message) :=
  error_messages_identify_values.1 ['N', 'H', 'W', 'C', 'X']
    ['N', 'C', 'H', 'W'] _ rfl

end DataFormatOps
